import Mathlib

/-!
Verification of the Table Transformation Library specified for the
`pandas-data-cleaning-tricks` repository.  The repository's script only
invokes an external tabular-data library (column coercion, sorting,
grouped aggregation, wide-to-long reshape, grouped lag-difference,
conditional recode, index reset); the operations themselves are not part
of the repository's sources.  Each operation below is therefore modelled
from the specification's component contracts (spec.md sections 3 to 4.8),
and the claimed properties are proved about these models.
-/

namespace Cleaning

/-- Modelled from the spec: a cell value is a typed value or the explicit
missing sentinel, distinct from zero and from the empty string (spec §3). -/
inductive Value where
  | missing : Value
  | num : ℚ → Value
  | vstr : String → Value
deriving DecidableEq, Repr

/-- Modelled from the spec: the declared kind of a Column (spec §3). -/
inductive Kind where
  | text : Kind
  | numeric : Kind
deriving DecidableEq, Repr

/-- Modelled from the spec: a Column is a declared kind together with a
sequence of values, each either a typed value or the missing sentinel
(spec §3). -/
structure Column where
  kind : Kind
  vals : List Value
deriving DecidableEq, Repr

/-! ### §4.1 Column typing and coercion (`coerce_numeric`) -/

/-- `matchesAt pat cs` is true when `pat` is an initial segment of `cs`. -/
def matchesAt : List Char → List Char → Bool
  | [], _ => true
  | _ :: _, [] => false
  | p :: ps, c :: cs => p = c && matchesAt ps cs

/-- Worker for `removeSub`, fuelled by the input length so that the
recursion is structural: at each position, a match of the pattern is
skipped whole, any other character is kept. -/
def removeSubGo (pat : List Char) : ℕ → List Char → List Char
  | _, [] => []
  | 0, l => l
  | fuel + 1, c :: cs =>
    if pat ≠ [] ∧ matchesAt pat (c :: cs) then
      removeSubGo pat fuel (List.drop pat.length (c :: cs))
    else
      c :: removeSubGo pat fuel cs

/-- Remove every occurrence of the literal substring `pat` from a character
sequence (spec §4.1: strip a configured non-numeric literal substring). -/
def removeSub (pat : List Char) (cs : List Char) : List Char :=
  removeSubGo pat cs.length cs

/-- Strip every configured literal substring, in the order supplied
(spec §4.1: the caller controls strip order explicitly). -/
def stripAll (strips : List (List Char)) (s : List Char) : List Char :=
  strips.foldl (fun acc pat => removeSub pat acc) s

/-- Numeric value of a digit sequence. -/
def digitsVal (cs : List Char) : ℕ :=
  cs.foldl (fun a c => 10 * a + (c.toNat - '0'.toNat)) 0

/-- All characters are decimal digits. -/
def allDigits (cs : List Char) : Bool :=
  cs.all Char.isDigit

/-- Modelled from the spec: parse of a stripped string as a number — an
optional sign, digits, and an optional decimal point with digits
(spec §4.1).  A string that is empty or not a valid number parses to
`none`. -/
def parseNum (cs : List Char) : Option ℚ :=
  let (neg, body) :=
    match cs with
    | '-' :: rest => (true, rest)
    | _ => (false, cs)
  let intPart := body.takeWhile (fun c => c ≠ '.')
  let rest := body.dropWhile (fun c => c ≠ '.')
  let mag : Option ℚ :=
    match rest with
    | [] =>
      if intPart ≠ [] ∧ allDigits intPart then some (digitsVal intPart) else none
    | '.' :: frac =>
      if intPart ≠ [] ∧ frac ≠ [] ∧ allDigits intPart ∧ allDigits frac then
        some ((digitsVal intPart : ℚ) + (digitsVal frac : ℚ) / (10 : ℚ) ^ frac.length)
      else none
    | _ => none
  mag.map (fun q => if neg then -q else q)

/-- Coercion of one cell: a text cell is stripped and parsed, a cell that
fails to parse becomes the missing sentinel; numeric cells pass through
and missing stays missing (spec §4.1). -/
def coerceCell (strips : List (List Char)) : Value → Value
  | Value.vstr s =>
    match parseNum (stripAll strips s.data) with
    | some q => Value.num q
    | none => Value.missing
  | Value.num q => Value.num q
  | Value.missing => Value.missing

/-- Modelled from the spec: `coerce_numeric` strips every configured
non-numeric literal substring from each text cell, parses the residue,
turns any cell that is empty or not a valid number after stripping into
the missing sentinel, and returns a new column whose kind is `numeric`
(spec §4.1).  The operation is a total function: it recovers locally on
each malformed cell instead of aborting. -/
def coerce_numeric (strips : List (List Char)) (c : Column) : Column :=
  { kind := Kind.numeric
    vals := c.vals.map (coerceCell strips) }

/-! ### §4.3 Sorting (`sort`) -/

/-- A row of a Table: one value per column, in column order. -/
def Row : Type := List Value

instance : DecidableEq Row := inferInstanceAs (DecidableEq (List Value))

/-- The value of row `r` in column position `c` (missing when out of range). -/
def getCol (r : Row) (c : ℕ) : Value :=
  List.getD r c Value.missing

/-- Three-way comparison of rationals. -/
def cmpQ (x y : ℚ) : Ordering :=
  if x < y then Ordering.lt else if y < x then Ordering.gt else Ordering.eq

/-- Three-way comparison of strings (lexicographic, via the order on
`String`). -/
def cmpS (x y : String) : Ordering :=
  if x < y then Ordering.lt else if y < x then Ordering.gt else Ordering.eq

/-- Modelled from the spec: comparison of two cell values under a sort
direction.  The missing sentinel compares strictly greater than every
present value regardless of direction; present values of the same kind
compare by their natural order, flipped when `asc` is `false`
(spec §4.3). -/
def cmpVal (asc : Bool) : Value → Value → Ordering
  | Value.missing, Value.missing => Ordering.eq
  | Value.missing, _ => Ordering.gt
  | _, Value.missing => Ordering.lt
  | Value.num x, Value.num y => if asc then cmpQ x y else cmpQ y x
  | Value.vstr x, Value.vstr y => if asc then cmpS x y else cmpS y x
  | Value.num _, Value.vstr _ => Ordering.lt
  | Value.vstr _, Value.num _ => Ordering.gt

/-- Modelled from the spec: multi-key lexicographic row comparison — rows
compared by the first key, ties broken by the following keys (spec §4.3).
A key is a column position paired with its direction (`true` =
ascending). -/
def cmpKeys : List (ℕ × Bool) → Row → Row → Ordering
  | [], _, _ => Ordering.eq
  | (c, asc) :: ks, r1, r2 =>
    match cmpVal asc (getCol r1 c) (getCol r2 c) with
    | Ordering.eq => cmpKeys ks r1 r2
    | o => o

/-- `rowLE keys a b` holds when row `a` does not compare greater than row
`b` under the key specification. -/
def rowLE (keys : List (ℕ × Bool)) (a b : Row) : Bool :=
  match cmpKeys keys a b with
  | Ordering.gt => false
  | _ => true

/-- Ordered insertion of a row into an already sorted row list. -/
def insertRow (le : Row → Row → Bool) (a : Row) : List Row → List Row
  | [] => [a]
  | b :: l => if le a b then a :: b :: l else b :: insertRow le a l

/-- Modelled from the spec: stable multi-key sort of a Table's rows by
insertion sort (spec §4.3). -/
def sortRows (keys : List (ℕ × Bool)) (rows : List Row) : List Row :=
  rows.foldr (insertRow (rowLE keys)) []

/-! ### §4.4 Grouped aggregation (`group_aggregate`) -/

/-- The distinct elements of a list in order of first appearance. -/
def firstKeys {K : Type} [DecidableEq K] : List K → List K
  | [] => []
  | k :: rest => k :: firstKeys (rest.filter (fun x => x ≠ k))
termination_by l => l.length
decreasing_by
  have := List.length_filter_le (fun x => decide (x ≠ k)) rest
  simp only [List.length_cons]
  omega

/-- Running (sum, count) reduction of the non-missing values of the rows
of one group: missing values are excluded from the reduction input set
(spec §4.4). -/
def groupSumCount {K : Type} [DecidableEq K]
    (rows : List (K × Option ℚ)) (k : K) : ℚ × ℕ :=
  rows.foldl
    (fun acc p =>
      if p.1 = k then
        match p.2 with
        | some v => (acc.1 + v, acc.2 + 1)
        | none => acc
      else acc)
    ((0 : ℚ), (0 : ℕ))

/-- Modelled from the spec: grouped aggregation with the arithmetic-mean
reducer over a Table with one group-key column and one numeric column.
Rows are partitioned by equal key values; output keys appear in
first-appearance order of the distinct keys; each group's value is the
mean of its non-missing values, and a group with zero non-missing values
yields missing (spec §4.4). -/
def group_aggregate {K : Type} [DecidableEq K]
    (rows : List (K × Option ℚ)) : List (K × Option ℚ) :=
  (firstKeys (rows.map Prod.fst)).map
    (fun k =>
      let sc := groupSumCount rows k
      (k, if sc.2 = 0 then none else some (sc.1 / sc.2)))

/-- The reduction input set of one group, stated independently of the
implementation: the non-missing values of exactly the rows whose key
equals `k` (spec §4.4). -/
def groupVals {K : Type} [DecidableEq K]
    (rows : List (K × Option ℚ)) (k : K) : List ℚ :=
  (rows.filter (fun p => p.1 = k)).filterMap Prod.snd

/-! ### §4.5 Reshape wide-to-long (`melt`) -/

/-- Modelled from the spec: a Table is an ordered sequence of named
columns of equal length, presented row-wise — a list of column names and
a list of rows (spec §3). -/
structure Table where
  colNames : List String
  rows : List Row
deriving DecidableEq

/-- The cell of row `r` under the column named `n` of a table with header
`names` (missing when the name is absent). -/
def cellAt (names : List String) (r : Row) (n : String) : Value :=
  match names.findIdx? (fun m => m = n) with
  | some i => getCol r i
  | none => Value.missing

/-- The value columns of a melt: every column not listed as an identifier
column, in declaration order (spec §4.5). -/
def valueCols (names : List String) (idCols : List String) : List String :=
  names.filter (fun n => ¬ idCols.contains n)

/-- One output row of a melt: the identifier values, the value column's
name, and that cell's value (spec §4.5). -/
def meltRow (names : List String) (idCols : List String) (r : Row)
    (c : String) : Row :=
  idCols.map (cellAt names r) ++ [Value.vstr c, cellAt names r c]

/-- Modelled from the spec: wide-to-long reshape.  Every column not in
`idCols` becomes a (label, value) pair; the output holds one row per
(original row, value column) pair, grouped by original row first and by
value-column declaration order within a row (spec §4.5). -/
def melt (t : Table) (idCols : List String) (labelName valueName : String) :
    Table :=
  { colNames := idCols ++ [labelName, valueName]
    rows := t.rows.flatMap
      (fun r => (valueCols t.colNames idCols).map (meltRow t.colNames idCols r)) }

/-! ### §4.6 Grouped lag-difference (`group_diff`) -/

/-- Subtraction on numeric-or-missing values: any operation involving
missing yields missing (spec §3). -/
def osub : Option ℚ → Option ℚ → Option ℚ
  | some a, some b => some (a - b)
  | _, _ => none

/-- The lag-1 difference of one row given the previously scanned rows
(most recent first): current value minus the value of the most recent row
of the same group, missing when no such row exists or either value is
missing (spec §4.6, lag = 1). -/
def diffStep {G : Type} [DecidableEq G]
    (prev : List (G × Option ℚ)) (p : G × Option ℚ) : Option ℚ :=
  match prev.find? (fun q => q.1 = p.1) with
  | some q => osub p.2 q.2
  | none => none

/-- Scan of the grouped lag-difference: `seen` holds the rows already
processed, most recent first (spec §4.6: grouped iteration with a
reset-on-new-group rule, spec §9). -/
def groupDiffAux {G : Type} [DecidableEq G]
    (seen : List (G × Option ℚ)) : List (G × Option ℚ) → List (Option ℚ)
  | [] => []
  | p :: rest => diffStep seen p :: groupDiffAux (p :: seen) rest

/-- Modelled from the spec: grouped lag-difference with lag 1 over an
ordered Table with one group-key column and one numeric value column.
Each row yields its value minus the value of the most recent earlier row
with the same group key, and missing when there is no such row
(spec §4.6). -/
def group_diff {G : Type} [DecidableEq G]
    (rows : List (G × Option ℚ)) : List (Option ℚ) :=
  groupDiffAux [] rows

/-- The group key of the row at position `i` (as an `Option`, `none` when
out of range). -/
def gAt {G : Type} (rows : List (G × Option ℚ)) (i : ℕ) : Option G :=
  (rows[i]?).map Prod.fst

/-- The numeric value of the row at position `i` (missing when out of
range or when the cell itself is missing). -/
def vAt {G : Type} (rows : List (G × Option ℚ)) (i : ℕ) : Option ℚ :=
  (rows[i]?).bind Prod.snd

/-- Rows of the same group are contiguous: whenever two positions carry
the same group key, every position between them carries it too
(spec §4.6 precondition: the caller has sorted the table so that rows of
the same group are contiguous). -/
def Contig {G : Type} [DecidableEq G] (rows : List (G × Option ℚ)) : Prop :=
  ∀ k, k < rows.length → ∀ j, j ≤ k → ∀ i, i ≤ j →
    gAt rows i = gAt rows k → gAt rows j = gAt rows k

instance {G : Type} [DecidableEq G] (rows : List (G × Option ℚ)) :
    Decidable (Contig rows) := by
  unfold Contig
  infer_instance

/-! ### §4.8 Conditional recode (`recode`) -/

/-- Modelled from the spec: conditional recode — a total elementwise
function over the source column: each output value is `whenTrue` when the
predicate holds on the source value and the unchanged source value
otherwise (spec §4.8). -/
def recode (p : Value → Bool) (whenTrue : Value) (col : List Value) :
    List Value :=
  col.map (fun v => if p v then whenTrue else v)

/-- Disjunction of two predicates, both operands always evaluated
(spec §4.8: composite OR predicate). -/
def orP (p q : Value → Bool) : Value → Bool :=
  fun v => p v || q v

/-- Conjunction of two predicates, both operands always evaluated
(spec §4.8: composite AND predicate). -/
def andP (p q : Value → Bool) : Value → Bool :=
  fun v => p v && q v

/-! ### Index reset (`reset_index`) -/

/-- A Table together with its explicit row index (the numbers displayed
next to the rows). -/
structure IndexedTable where
  rowIndex : List ℕ
  colNames : List String
  rows : List Row
deriving DecidableEq

/-- Modelled from the spec and call sites: `reset_index` renumbers the
row index from 0 to N−1; with `drop = true` the old index is discarded,
otherwise it is added as a leading column named `index`. -/
def reset_index (drop : Bool) (t : IndexedTable) : IndexedTable :=
  if drop then
    { rowIndex := List.range t.rows.length
      colNames := t.colNames
      rows := t.rows }
  else
    { rowIndex := List.range t.rows.length
      colNames := "index" :: t.colNames
      rows := (t.rowIndex.zip t.rows).map
        (fun p => Value.num (p.1 : ℚ) :: p.2) }

/-! ## Supporting lemmas -/

lemma flatMap_length_const {α β : Type} (l : List α) (f : α → List β) (V : ℕ)
    (hf : ∀ x, (f x).length = V) : (l.flatMap f).length = l.length * V := by
  induction l with
  | nil => simp
  | cons a l ih =>
    simp [List.flatMap_cons, hf, ih, Nat.succ_mul, Nat.add_comm]

lemma flatMap_getElem?_const {α β : Type} (l : List α) (f : α → List β) (V : ℕ)
    (hf : ∀ x, (f x).length = V) (i j : ℕ) (x : α) (hj : j < V)
    (hx : l[i]? = some x) :
    (l.flatMap f)[i * V + j]? = (f x)[j]? := by
  induction l generalizing i with
  | nil => simp at hx
  | cons a l ih =>
    cases i with
    | zero =>
      have hax : a = x := by simpa using hx
      subst hax
      rw [List.flatMap_cons, Nat.zero_mul, Nat.zero_add,
        List.getElem?_append_left (by rw [hf]; exact hj)]
    | succ n =>
      rw [List.getElem?_cons_succ] at hx
      rw [List.flatMap_cons]
      have harith : (n + 1) * V + j = (f a).length + (n * V + j) := by
        rw [hf]; ring
      rw [harith, List.getElem?_append_right (Nat.le_add_right _ _),
        Nat.add_sub_cancel_left]
      exact ih n hx

/-! ## Claims -/

/-- Claim C6: for every input table, the melt (wide-to-long) output has
exactly `row_count(input) * number_of_value_columns` rows, where the value
columns are all columns not listed as identifier columns. -/
theorem claim_C6_melt_row_count (t : Table) (idCols : List String)
    (labelName valueName : String) :
    (melt t idCols labelName valueName).rows.length =
      t.rows.length * (valueCols t.colNames idCols).length := by
  unfold melt
  exact flatMap_length_const _ _ _ (fun r => by simp)

/-- Claim C7: the rows of the melt output are ordered grouped by original
input row first, and within each original row by the declaration order of
the value columns: the output row at position `i * V + j` is built from
input row `i` and the `j`-th value column (row-major order). -/
theorem claim_C7_melt_row_order (t : Table) (idCols : List String)
    (labelName valueName : String) (i j : ℕ) (r : Row) (c : String)
    (hr : t.rows[i]? = some r)
    (hc : (valueCols t.colNames idCols)[j]? = some c) :
    (melt t idCols labelName valueName).rows[i * (valueCols t.colNames idCols).length + j]? =
      some (meltRow t.colNames idCols r c) := by
  obtain ⟨hj, hcj⟩ := List.getElem?_eq_some.mp hc
  unfold melt
  rw [flatMap_getElem?_const _ _ _ (fun r => by simp) i j r hj hr,
    List.getElem?_map, hc]
  rfl

/-- Witness for claim C7 at a concrete two-row, two-value-column table. -/
theorem claim_C7_witness :
    (melt { colNames := ["Country", "2012", "2013"],
            rows := [[Value.vstr "AL", Value.num 13, Value.num 16],
                     [Value.vstr "VN", Value.num 1, Value.num 2]] }
        ["Country"] "Year" "Rate").rows[1 *
          (valueCols ["Country", "2012", "2013"] ["Country"]).length + 0]? =
      some (meltRow ["Country", "2012", "2013"] ["Country"]
        [Value.vstr "VN", Value.num 1, Value.num 2] "2012") :=
  claim_C7_melt_row_order _ ["Country"] "Year" "Rate" 1 0
    [Value.vstr "VN", Value.num 1, Value.num 2] "2012" rfl rfl

/-- Claim C9: conditional recode is a total elementwise function: the
output column has one value per source row, and each output value equals
`whenTrue` when the predicate holds on that row's source value and the
unchanged source value otherwise (pass-through, never the missing
sentinel). -/
theorem claim_C9_recode_total (p : Value → Bool) (w : Value)
    (col : List Value) :
    (recode p w col).length = col.length ∧
    ∀ (i : ℕ) (v : Value), col[i]? = some v →
      (recode p w col)[i]? = some (if p v then w else v) := by
  constructor
  · simp [recode]
  · intro i v hv
    unfold recode
    rw [List.getElem?_map, hv]
    rfl

/-- Witness for claim C9 with a composite OR predicate over the
attendee-status recode. -/
theorem claim_C9_witness :
    (recode
        (orP (fun v => v = Value.vstr "Nonprofit, Academic, Government")
          (fun v => v = Value.vstr "Nonprofit, Academic, Government Early Bird"))
        (Value.vstr "Nonprofit/Gov")
        [Value.vstr "Student",
         Value.vstr "Nonprofit, Academic, Government Early Bird",
         Value.missing]).length =
      [Value.vstr "Student",
       Value.vstr "Nonprofit, Academic, Government Early Bird",
       Value.missing].length ∧
    (recode
        (orP (fun v => v = Value.vstr "Nonprofit, Academic, Government")
          (fun v => v = Value.vstr "Nonprofit, Academic, Government Early Bird"))
        (Value.vstr "Nonprofit/Gov")
        [Value.vstr "Student",
         Value.vstr "Nonprofit, Academic, Government Early Bird",
         Value.missing])[1]? =
      some
        (if orP (fun v => v = Value.vstr "Nonprofit, Academic, Government")
            (fun v => v = Value.vstr "Nonprofit, Academic, Government Early Bird")
            (Value.vstr "Nonprofit, Academic, Government Early Bird")
          then Value.vstr "Nonprofit/Gov"
          else Value.vstr "Nonprofit, Academic, Government Early Bird") :=
  ⟨(claim_C9_recode_total _ _ _).1,
    (claim_C9_recode_total _ _ _).2 1
      (Value.vstr "Nonprofit, Academic, Government Early Bird") rfl⟩

/-- Claim C10: resetting the row index with drop enabled preserves the row
order and the values of every column exactly, renumbers the row index from
0 to N−1, and does not add the old index as a new column. -/
theorem claim_C10_reset_index_drop (t : IndexedTable) :
    (reset_index true t).rows = t.rows ∧
    (reset_index true t).colNames = t.colNames ∧
    (reset_index true t).rowIndex = List.range t.rows.length := by
  refine ⟨rfl, rfl, rfl⟩

/-- Claim C2: for every text column and every configured strip set,
`coerce_numeric` is total over the whole column (one output cell per input
cell) and maps every cell that is empty or not a valid number after
stripping to the missing sentinel; the other cells are coerced
independently, so a single malformed cell never aborts the column. -/
theorem claim_C2_coerce_malformed_to_missing (strips : List (List Char))
    (c : Column) :
    (coerce_numeric strips c).vals.length = c.vals.length ∧
    (∀ (i : ℕ) (v : Value), c.vals[i]? = some v →
      (coerce_numeric strips c).vals[i]? = some (coerceCell strips v)) ∧
    ∀ (i : ℕ) (s : String), c.vals[i]? = some (Value.vstr s) →
      (stripAll strips s.data = [] ∨ parseNum (stripAll strips s.data) = none) →
      (coerce_numeric strips c).vals[i]? = some Value.missing := by
  refine ⟨by simp [coerce_numeric], ?_, ?_⟩
  · intro i v hv
    unfold coerce_numeric
    simp only [List.getElem?_map, hv, Option.map_some']
  · intro i s hs hbad
    unfold coerce_numeric
    simp only [List.getElem?_map, hs, Option.map_some']
    have hnone : parseNum (stripAll strips s.data) = none := by
      rcases hbad with h | h
      · rw [h]; rfl
      · exact h
    simp [coerceCell, hnone]

/-- Witness for claim C2: with strip set {",", "$"}, the malformed cell
"abc" and the empty cell both coerce to missing rather than aborting. -/
theorem claim_C2_witness :
    (coerce_numeric [[','], ['$']]
        { kind := Kind.text,
          vals := [Value.vstr "$1,234.56", Value.vstr "abc", Value.vstr ""] }).vals.length =
      [Value.vstr "$1,234.56", Value.vstr "abc", Value.vstr ""].length ∧
    (coerce_numeric [[','], ['$']]
        { kind := Kind.text,
          vals := [Value.vstr "$1,234.56", Value.vstr "abc", Value.vstr ""] }).vals[1]? =
      some Value.missing := by
  refine ⟨(claim_C2_coerce_malformed_to_missing _ _).1, ?_⟩
  exact (claim_C2_coerce_malformed_to_missing _ _).2.2 1 "abc" rfl
    (Or.inr (by decide))

/-- Claim C8: `coerce_numeric` returns a new column of numeric kind, with
one value per input cell, every value numeric or missing; the model's
operations are pure functions over immutable columns, so the original text
column is unaffected. -/
theorem claim_C8_coerce_numeric_kind (strips : List (List Char))
    (c : Column) :
    (coerce_numeric strips c).kind = Kind.numeric ∧
    (coerce_numeric strips c).vals.length = c.vals.length ∧
    ∀ v ∈ (coerce_numeric strips c).vals,
      v = Value.missing ∨ ∃ q : ℚ, v = Value.num q := by
  refine ⟨rfl, by simp [coerce_numeric], ?_⟩
  intro v hv
  unfold coerce_numeric at hv
  obtain ⟨x, hx, hcx⟩ := List.mem_map.mp hv
  subst hcx
  cases x with
  | missing => left; rfl
  | num q => right; exact ⟨q, rfl⟩
  | vstr s =>
    cases hp : parseNum (stripAll strips s.data) with
    | none => left; simp [coerceCell, hp]
    | some q => right; exact ⟨q, by simp [coerceCell, hp]⟩

/-- Witness for claim C8 at a one-cell text column whose cell fails to
parse: the result column is numeric-kinded and the cell is missing. -/
theorem claim_C8_witness :
    (coerce_numeric [[',']]
        { kind := Kind.text, vals := [Value.vstr "x"] }).kind = Kind.numeric ∧
    (Value.missing = Value.missing ∨ ∃ q : ℚ, Value.missing = Value.num q) :=
  ⟨(claim_C8_coerce_numeric_kind _ _).1,
    (claim_C8_coerce_numeric_kind [[',']]
        { kind := Kind.text, vals := [Value.vstr "x"] }).2.2 Value.missing
      (by decide)⟩

lemma groupSumCount_spec {K : Type} [DecidableEq K]
    (rows : List (K × Option ℚ)) (k : K) :
    groupSumCount rows k = ((groupVals rows k).sum, (groupVals rows k).length) := by
  unfold groupSumCount
  suffices h : ∀ (rows : List (K × Option ℚ)) (a : ℚ) (n : ℕ),
      rows.foldl
        (fun acc p =>
          if p.1 = k then
            match p.2 with
            | some v => (acc.1 + v, acc.2 + 1)
            | none => acc
          else acc)
        (a, n) = (a + (groupVals rows k).sum, n + (groupVals rows k).length) by
    simpa using h rows 0 0
  intro rows
  induction rows with
  | nil => intro a n; simp [groupVals]
  | cons p rest ih =>
    intro a n
    rw [List.foldl_cons]
    by_cases hk : p.1 = k
    · cases hv : p.2 with
      | some v =>
        simp only [if_pos hk, hv]
        rw [ih]
        simp [groupVals, List.filter_cons, hk, hv, List.filterMap_cons,
          add_assoc, add_comm, add_left_comm]
      | none =>
        simp only [if_pos hk, hv]
        rw [ih]
        simp [groupVals, List.filter_cons, hk, hv, List.filterMap_cons]
    · simp only [if_neg hk]
      rw [ih]
      simp [groupVals, List.filter_cons, hk]

lemma mem_group_aggregate_val {K : Type} [DecidableEq K]
    {rows : List (K × Option ℚ)} {k : K} {m : Option ℚ}
    (h : (k, m) ∈ group_aggregate rows) :
    m = if (groupVals rows k).length = 0 then none
        else some ((groupVals rows k).sum / (groupVals rows k).length) := by
  unfold group_aggregate at h
  obtain ⟨k', _hk', heq⟩ := List.mem_map.mp h
  obtain ⟨hk, hm⟩ := Prod.mk.injEq .. ▸ heq
  subst hk
  rw [← hm, groupSumCount_spec]

/-- Claim C3: grouped aggregation with the mean reducer computes, for each
group, the arithmetic mean of exactly that group's non-missing values; a
group whose values are all missing yields missing. -/
theorem claim_C3_grouped_mean (K : Type) [DecidableEq K]
    (rows : List (K × Option ℚ)) (k : K) (m : Option ℚ)
    (hmem : (k, m) ∈ group_aggregate rows) :
    (groupVals rows k = [] → m = none) ∧
    (groupVals rows k ≠ [] →
      m = some ((groupVals rows k).sum / (groupVals rows k).length)) := by
  have hm := mem_group_aggregate_val hmem
  constructor
  · intro h
    rw [hm, if_pos (by rw [h]; rfl)]
  · intro h
    rw [hm, if_neg (fun hc => h (List.length_eq_zero.mp hc))]

/-- Witness for claim C3: the end-to-end scenario with groups
`P = {100, 200}` and `Q = {missing}` — `P` yields 150 and `Q` yields
missing. -/
theorem claim_C3_witness :
    ((groupVals [("P", some (100 : ℚ)), ("P", some 200), ("Q", none)] "P" = [] →
        (some (150 : ℚ)) = none) ∧
      (groupVals [("P", some (100 : ℚ)), ("P", some 200), ("Q", none)] "P" ≠ [] →
        (some (150 : ℚ)) =
          some ((groupVals [("P", some (100 : ℚ)), ("P", some 200), ("Q", none)] "P").sum /
            (groupVals [("P", some (100 : ℚ)), ("P", some 200), ("Q", none)] "P").length))) ∧
    (groupVals [("P", some (100 : ℚ)), ("P", some 200), ("Q", none)] "Q" = [] →
      (none : Option ℚ) = none) :=
  ⟨claim_C3_grouped_mean String [("P", some 100), ("P", some 200), ("Q", none)]
      "P" (some 150)
      (by
        have h : group_aggregate [("P", some (100 : ℚ)), ("P", some 200), ("Q", none)] =
            [("P", some 150), ("Q", none)] := by
          simp [group_aggregate, firstKeys, groupSumCount]
          norm_num
        rw [h]
        simp),
    (claim_C3_grouped_mean String [("P", some 100), ("P", some 200), ("Q", none)]
      "Q" none
      (by
        have h : group_aggregate [("P", some (100 : ℚ)), ("P", some 200), ("Q", none)] =
            [("P", some 150), ("Q", none)] := by
          simp [group_aggregate, firstKeys, groupSumCount]
          norm_num
        rw [h]
        simp)).1⟩

lemma firstKeys_mem {K : Type} [DecidableEq K] :
    ∀ (l : List K) (k : K), k ∈ firstKeys l ↔ k ∈ l := by
  intro l
  induction l using firstKeys.induct with
  | case1 => simp [firstKeys]
  | case2 a rest ih =>
    intro k
    simp only [firstKeys, List.mem_cons]
    rw [ih]
    by_cases hka : k = a
    · simp [hka]
    · simp [hka, List.mem_filter]

lemma firstKeys_nodup {K : Type} [DecidableEq K] :
    ∀ l : List K, (firstKeys l).Nodup := by
  intro l
  induction l using firstKeys.induct with
  | case1 => simp [firstKeys]
  | case2 a rest ih =>
    simp only [firstKeys, List.nodup_cons]
    refine ⟨?_, ih⟩
    intro hmem
    have : a ∈ rest.filter (fun x => x ≠ a) := (firstKeys_mem _ _).mp hmem
    have := (List.mem_filter.mp this).2
    simp at this

lemma indexOf_filter_lt {K : Type} [DecidableEq K] (p : K → Bool) :
    ∀ (l : List K) (a b : K), a ∈ l.filter p → b ∈ l.filter p →
      (l.filter p).indexOf a < (l.filter p).indexOf b →
      l.indexOf a < l.indexOf b := by
  intro l
  induction l with
  | nil => intro a b ha; simp at ha
  | cons r rest ih =>
    intro a b ha hb hlt
    cases hpr : p r with
    | true =>
      rw [List.filter_cons_of_pos hpr] at ha hb hlt
      by_cases har : a = r
      · subst har
        rw [List.indexOf_cons_self] at hlt ⊢
        have hba : b ≠ a := by
          intro hba
          subst hba
          rw [List.indexOf_cons_self] at hlt
          exact Nat.lt_irrefl _ hlt
        rw [List.indexOf_cons_ne _ (fun h => hba h.symm)]
        exact Nat.succ_pos _
      · by_cases hbr : b = r
        · subst hbr
          rw [List.indexOf_cons_self] at hlt
          exact absurd hlt (Nat.not_lt_zero _)
        · have hra : r ≠ a := fun h => har h.symm
          have hrb : r ≠ b := fun h => hbr h.symm
          rw [List.indexOf_cons_ne _ hra, List.indexOf_cons_ne _ hrb] at hlt ⊢
          have ha' : a ∈ rest.filter p := (List.mem_cons.mp ha).resolve_left har
          have hb' : b ∈ rest.filter p := (List.mem_cons.mp hb).resolve_left hbr
          exact Nat.succ_lt_succ (ih a b ha' hb' (Nat.lt_of_succ_lt_succ hlt))
    | false =>
      rw [List.filter_cons_of_neg (by simp [hpr])] at ha hb hlt
      have hpa : p a = true := (List.mem_filter.mp ha).2
      have hpb : p b = true := (List.mem_filter.mp hb).2
      have hra : r ≠ a := by
        intro h
        rw [h, hpa] at hpr
        exact Bool.noConfusion hpr
      have hrb : r ≠ b := by
        intro h
        rw [h, hpb] at hpr
        exact Bool.noConfusion hpr
      rw [List.indexOf_cons_ne _ hra, List.indexOf_cons_ne _ hrb]
      exact Nat.succ_lt_succ (ih a b ha hb hlt)

lemma firstKeys_indexOf_pairwise {K : Type} [DecidableEq K] :
    ∀ l : List K,
      (firstKeys l).Pairwise (fun a b => l.indexOf a < l.indexOf b) := by
  intro l
  induction l using firstKeys.induct with
  | case1 => simp [firstKeys]
  | case2 a rest ih =>
    simp only [firstKeys]
    rw [List.pairwise_cons]
    constructor
    · intro b hb
      have hbf : b ∈ rest.filter (fun x => x ≠ a) := (firstKeys_mem _ _).mp hb
      have hba : b ≠ a := by
        have := (List.mem_filter.mp hbf).2
        simpa using this
      rw [List.indexOf_cons_self, List.indexOf_cons_ne _ (fun h => hba h.symm)]
      exact Nat.succ_pos _
    · refine ih.imp_of_mem ?_
      intro x y hx hy hlt
      have hxf : x ∈ rest.filter (fun k => k ≠ a) := (firstKeys_mem _ _).mp hx
      have hyf : y ∈ rest.filter (fun k => k ≠ a) := (firstKeys_mem _ _).mp hy
      have hxa : x ≠ a := by simpa using (List.mem_filter.mp hxf).2
      have hya : y ≠ a := by simpa using (List.mem_filter.mp hyf).2
      have hrest : rest.indexOf x < rest.indexOf y :=
        indexOf_filter_lt _ rest x y hxf hyf hlt
      rw [List.indexOf_cons_ne _ (fun h => hxa h.symm),
        List.indexOf_cons_ne _ (fun h => hya h.symm)]
      exact Nat.succ_lt_succ hrest

/-- Claim C4: the rows of the grouped-aggregation output appear in
first-appearance order of the distinct group keys of the input: the output
keys are exactly the distinct input keys, without duplicates, ordered by
the position of their first occurrence in the input (not sorted). -/
theorem claim_C4_group_first_appearance_order (K : Type) [DecidableEq K]
    (rows : List (K × Option ℚ)) :
    ((group_aggregate rows).map Prod.fst).Nodup ∧
    (∀ k : K, k ∈ (group_aggregate rows).map Prod.fst ↔ k ∈ rows.map Prod.fst) ∧
    ((group_aggregate rows).map Prod.fst).Pairwise
      (fun a b => (rows.map Prod.fst).indexOf a < (rows.map Prod.fst).indexOf b) := by
  have hkeys : (group_aggregate rows).map Prod.fst = firstKeys (rows.map Prod.fst) := by
    unfold group_aggregate
    rw [List.map_map]
    exact List.map_id _
  rw [hkeys]
  exact ⟨firstKeys_nodup _, fun k => firstKeys_mem _ _, firstKeys_indexOf_pairwise _⟩

lemma mem_insertRow (le : Row → Row → Bool) (a : Row) :
    ∀ (l : List Row) (y : Row), y ∈ insertRow le a l ↔ y = a ∨ y ∈ l := by
  intro l
  induction l with
  | nil => intro y; simp [insertRow]
  | cons b l ih =>
    intro y
    unfold insertRow
    by_cases h : le a b
    · rw [if_pos h]
      simp only [List.mem_cons]
    · rw [if_neg h]
      simp only [List.mem_cons, ih]
      tauto

lemma insertRow_pairwise (le : Row → Row → Bool) (P : Row → Prop)
    (h1 : ∀ x y, P x → ¬ P y → le x y = false)
    (h2 : ∀ x y, ¬ P x → P y → le x y = true) (a : Row) :
    ∀ l : List Row, l.Pairwise (fun x y => P x → P y) →
      (insertRow le a l).Pairwise (fun x y => P x → P y) := by
  intro l
  induction l with
  | nil => intro _; simp [insertRow]
  | cons b l ih =>
    intro hl
    rw [List.pairwise_cons] at hl
    obtain ⟨hb, hl'⟩ := hl
    unfold insertRow
    by_cases hab : le a b = true
    · rw [if_pos hab, List.pairwise_cons]
      refine ⟨?_, List.pairwise_cons.mpr ⟨hb, hl'⟩⟩
      intro y hy hPa
      by_cases hPb : P b
      · rcases List.mem_cons.mp hy with rfl | hy'
        · exact hPb
        · exact hb y hy' hPb
      · rw [h1 a b hPa hPb] at hab
        exact Bool.noConfusion hab
    · rw [if_neg hab, List.pairwise_cons]
      refine ⟨?_, ih hl'⟩
      intro y hy hPb
      rcases (mem_insertRow le a l y).mp hy with rfl | hy'
      · by_cases hPa : P y
        · exact hPa
        · exact absurd (h2 y b hPa hPb) hab
      · exact hb y hy' hPb

lemma sortRows_pairwise (keys : List (ℕ × Bool)) (P : Row → Prop)
    (h1 : ∀ x y, P x → ¬ P y → rowLE keys x y = false)
    (h2 : ∀ x y, ¬ P x → P y → rowLE keys x y = true) :
    ∀ rows : List Row, (sortRows keys rows).Pairwise (fun x y => P x → P y) := by
  intro rows
  induction rows with
  | nil => simp [sortRows]
  | cons r rows ih =>
    exact insertRow_pairwise (rowLE keys) P h1 h2 r (sortRows keys rows) ih

lemma cmpVal_missing_left (asc : Bool) (v : Value) (hv : v ≠ Value.missing) :
    cmpVal asc Value.missing v = Ordering.gt := by
  cases v with
  | missing => exact absurd rfl hv
  | num q => rfl
  | vstr s => rfl

lemma cmpVal_missing_right (asc : Bool) (v : Value) (hv : v ≠ Value.missing) :
    cmpVal asc v Value.missing = Ordering.lt := by
  cases v with
  | missing => exact absurd rfl hv
  | num q => rfl
  | vstr s => rfl

lemma rowLE_missing_present {c : ℕ} {asc : Bool} {ks : List (ℕ × Bool)}
    {x y : Row} (hx : getCol x c = Value.missing)
    (hy : getCol y c ≠ Value.missing) :
    rowLE ((c, asc) :: ks) x y = false := by
  unfold rowLE
  show (match cmpKeys ((c, asc) :: ks) x y with
    | Ordering.gt => false
    | _ => true) = false
  have : cmpKeys ((c, asc) :: ks) x y = Ordering.gt := by
    show (match cmpVal asc (getCol x c) (getCol y c) with
      | Ordering.eq => cmpKeys ks x y
      | o => o) = Ordering.gt
    rw [hx, cmpVal_missing_left asc _ hy]
  rw [this]

lemma rowLE_present_missing {c : ℕ} {asc : Bool} {ks : List (ℕ × Bool)}
    {x y : Row} (hx : getCol x c ≠ Value.missing)
    (hy : getCol y c = Value.missing) :
    rowLE ((c, asc) :: ks) x y = true := by
  unfold rowLE
  show (match cmpKeys ((c, asc) :: ks) x y with
    | Ordering.gt => false
    | _ => true) = true
  have : cmpKeys ((c, asc) :: ks) x y = Ordering.lt := by
    show (match cmpVal asc (getCol x c) (getCol y c) with
      | Ordering.eq => cmpKeys ks x y
      | o => o) = Ordering.lt
    rw [hy, cmpVal_missing_right asc _ hx]
  rw [this]

/-- Claim C5: after sorting by any key specification, in either direction,
every row whose (first) key value is missing is placed after every row
with a present key value: once a missing-key row appears in the output,
every later row's key is missing too. -/
theorem claim_C5_sort_missing_last (c : ℕ) (asc : Bool) (ks : List (ℕ × Bool))
    (rows : List Row) (i j : ℕ) (hij : i < j)
    (hj : j < (sortRows ((c, asc) :: ks) rows).length)
    (hm : getCol ((sortRows ((c, asc) :: ks) rows).getD i []) c = Value.missing) :
    getCol ((sortRows ((c, asc) :: ks) rows).getD j []) c = Value.missing := by
  have hp := sortRows_pairwise ((c, asc) :: ks)
    (fun r => getCol r c = Value.missing)
    (fun x y hx hy => rowLE_missing_present hx hy)
    (fun x y hx hy => rowLE_present_missing hx hy) rows
  rw [List.pairwise_iff_getElem] at hp
  have hi : i < (sortRows ((c, asc) :: ks) rows).length := lt_trans hij hj
  have hstep := hp i j hi hj hij
  rw [List.getD_eq_getElem?_getD, List.getElem?_eq_getElem hi,
    Option.getD_some] at hm
  rw [List.getD_eq_getElem?_getD, List.getElem?_eq_getElem hj,
    Option.getD_some]
  exact hstep hm

/-- Witness for claim C5: a descending single-key sort of a column with
two missing cells puts both missing cells after the present one. -/
theorem claim_C5_witness :
    1 < 2 ∧
    2 < (sortRows [((0 : ℕ), false)]
      [[Value.missing], [Value.vstr "a"], [Value.missing]]).length ∧
    getCol ((sortRows [((0 : ℕ), false)]
      [[Value.missing], [Value.vstr "a"], [Value.missing]]).getD 1 []) 0 =
        Value.missing ∧
    getCol ((sortRows [((0 : ℕ), false)]
      [[Value.missing], [Value.vstr "a"], [Value.missing]]).getD 2 []) 0 =
        Value.missing :=
  ⟨by decide, by decide, by decide,
    claim_C5_sort_missing_last 0 false []
      [[Value.missing], [Value.vstr "a"], [Value.missing]] 1 2
      (by decide) (by decide) (by decide)⟩

lemma groupDiffAux_getElem? {G : Type} [DecidableEq G] :
    ∀ (rest seen : List (G × Option ℚ)) (i : ℕ) (p : G × Option ℚ),
      rest[i]? = some p →
      (groupDiffAux seen rest)[i]? =
        some (diffStep ((rest.take i).reverse ++ seen) p) := by
  intro rest
  induction rest with
  | nil => intro seen i p hp; simp at hp
  | cons q rest ih =>
    intro seen i p hp
    cases i with
    | zero =>
      have hqp : q = p := by simpa using hp
      subst hqp
      simp [groupDiffAux, List.take_zero]
    | succ n =>
      rw [List.getElem?_cons_succ] at hp
      show (diffStep seen q :: groupDiffAux (q :: seen) rest)[n + 1]? = _
      rw [List.getElem?_cons_succ, ih (q :: seen) n p hp]
      simp [List.take_succ_cons, List.reverse_cons, List.append_assoc]

/-- Claim C1: over a table whose rows make every group contiguous, grouped
lag-1 difference yields, at each row, the row's value minus the value one
row earlier exactly when the earlier row has the same group key, and
missing otherwise — so the first row of each group yields missing and no
difference is ever computed across a group boundary. -/
theorem claim_C1_grouped_diff (G : Type) [DecidableEq G]
    (rows : List (G × Option ℚ)) (hc : Contig rows) (i : ℕ)
    (hi : i < rows.length) :
    (group_diff rows)[i]? =
      some (if 0 < i ∧ gAt rows (i - 1) = gAt rows i then
          osub (vAt rows i) (vAt rows (i - 1))
        else none) := by
  have hstep := groupDiffAux_getElem? rows [] i rows[i]
    (List.getElem?_eq_getElem hi)
  unfold group_diff
  rw [hstep, List.append_nil]
  congr 1
  cases i with
  | zero =>
    simp [diffStep, List.take_zero]
  | succ n =>
    have hn : n < rows.length := Nat.lt_of_succ_lt hi
    have htake : (rows.take (n + 1)).reverse = rows[n] :: (rows.take n).reverse := by
      rw [List.take_succ, List.getElem?_eq_getElem hn]
      simp
    rw [htake]
    by_cases hg : rows[n].1 = rows[n + 1].1
    · have hd : diffStep (rows[n] :: (rows.take n).reverse) rows[n + 1] =
          osub rows[n + 1].2 rows[n].2 := by
        unfold diffStep
        rw [List.find?_cons]
        simp [hg]
      rw [hd]
      have hga : gAt rows (n + 1 - 1) = gAt rows (n + 1) := by
        simp only [Nat.add_sub_cancel, gAt, List.getElem?_eq_getElem hn,
          List.getElem?_eq_getElem hi, Option.map_some']
        rw [hg]
      rw [if_pos ⟨Nat.succ_pos n, hga⟩]
      simp [vAt, List.getElem?_eq_getElem hn, List.getElem?_eq_getElem hi]
    · have hfind : List.find? (fun q => q.1 = rows[n + 1].1)
          ((rows.take n).reverse) = none := by
        rw [List.find?_eq_none]
        intro q hq
        rw [List.mem_reverse] at hq
        obtain ⟨m, hm, hqm⟩ := List.getElem_of_mem hq
        rw [List.getElem_take] at hqm
        have hmn : m < n := by
          rw [List.length_take] at hm
          omega
        simp only [decide_eq_true_eq]
        intro hq1
        have hgm : gAt rows m = gAt rows (n + 1) := by
          have hmlen : m < rows.length := lt_trans hmn hn
          simp only [gAt, List.getElem?_eq_getElem hmlen,
            List.getElem?_eq_getElem hi, Option.map_some']
          rw [hqm, hq1]
        have hcontig := hc (n + 1) hi n (Nat.le_succ n) m (Nat.le_of_lt hmn) hgm
        simp only [gAt, List.getElem?_eq_getElem hn,
          List.getElem?_eq_getElem hi, Option.map_some', Option.some_inj] at hcontig
        exact hg hcontig
      have hd : diffStep (rows[n] :: (rows.take n).reverse) rows[n + 1] = none := by
        unfold diffStep
        rw [List.find?_cons]
        have hgd : (decide (rows[n].1 = rows[n + 1].1)) = false := by
          simp [hg]
        rw [hgd, hfind]
      rw [hd]
      have hcond : ¬ (0 < n + 1 ∧ gAt rows (n + 1 - 1) = gAt rows (n + 1)) := by
        rintro ⟨-, hcon⟩
        simp only [Nat.add_sub_cancel, gAt, List.getElem?_eq_getElem hn,
          List.getElem?_eq_getElem hi, Option.map_some', Option.some_inj] at hcon
        exact hg hcon
      rw [if_neg hcond]

/-- Witness for claim C1: a two-group contiguous table; the first row of
the second group (position 2) sits at the group boundary, its group key
differs from the previous row's, and the grouped difference there is
missing rather than a cross-group difference. -/
theorem claim_C1_witness :
    Contig [("A", some (3 : ℚ)), ("A", some 5), ("B", some 2), ("B", some 6)] ∧
    (group_diff [("A", some (3 : ℚ)), ("A", some 5), ("B", some 2), ("B", some 6)])[2]? =
      some (if 0 < 2 ∧
          gAt [("A", some (3 : ℚ)), ("A", some 5), ("B", some 2), ("B", some 6)] (2 - 1) =
            gAt [("A", some (3 : ℚ)), ("A", some 5), ("B", some 2), ("B", some 6)] 2 then
          osub (vAt [("A", some (3 : ℚ)), ("A", some 5), ("B", some 2), ("B", some 6)] 2)
            (vAt [("A", some (3 : ℚ)), ("A", some 5), ("B", some 2), ("B", some 6)] (2 - 1))
        else none) :=
  ⟨by decide,
    claim_C1_grouped_diff String
      [("A", some 3), ("A", some 5), ("B", some 2), ("B", some 6)]
      (by decide) 2 (by decide)⟩

end Cleaning
